import Mathlib

/-!
Verification of the youtube-dl CLI wrapper (SuperLeeK/youtube-dl).

JavaScript strings are modelled as `List Char` (`JStr`).  Each definition in
this file is a shallow embedding of the correspondingly named function of the
repository (`src/index.js`, `src/bin/index.js`, `src/bin/batch-download.js`);
definitions whose name does not occur in the source are auxiliary (models of
JS primitives such as `String.prototype.replace`, `Array.prototype.sort`,
`path.join`, `parseInt`) or spec-side definitions used for refinement
statements.
-/

namespace YtDl

/-- A JavaScript string, modelled as its list of Unicode scalar characters. -/
abbrev JStr := List Char

/-! ## Character classes used by the sanitizer regexes -/

/-- The characters of the regex class `[<>:"/\\|?*]` used by both sanitizers. -/
def isForbidden (c : Char) : Bool :=
  decide (c = '<' ∨ c = '>' ∨ c = ':' ∨ c = '"' ∨ c = '/' ∨ c = '\\' ∨
    c = '|' ∨ c = '?' ∨ c = '*')

/-- JS regex `\s` (ECMAScript WhiteSpace ∪ LineTerminator ∪ Zs). -/
def jsWhitespace (c : Char) : Bool :=
  decide (c.toNat = 0x9 ∨ c.toNat = 0xA ∨ c.toNat = 0xB ∨ c.toNat = 0xC ∨
    c.toNat = 0xD ∨ c.toNat = 0x20 ∨ c.toNat = 0xA0 ∨ c.toNat = 0x1680 ∨
    (0x2000 ≤ c.toNat ∧ c.toNat ≤ 0x200A) ∨ c.toNat = 0x2028 ∨
    c.toNat = 0x2029 ∨ c.toNat = 0x202F ∨ c.toNat = 0x205F ∨
    c.toNat = 0x3000 ∨ c.toNat = 0xFEFF)

/-- The characters kept by step (c) of `sanitizeFolderName`: the complement of
regex `[^\w\-_가-힯ᄀ-ᇿ㄰-㆏]`, i.e. ASCII word
characters, hyphen, underscore and the Korean syllable/Jamo ranges. -/
def allowedFolderChar (c : Char) : Bool :=
  decide ((48 ≤ c.toNat ∧ c.toNat ≤ 57) ∨ (65 ≤ c.toNat ∧ c.toNat ≤ 90) ∨
    (97 ≤ c.toNat ∧ c.toNat ≤ 122) ∨ c.toNat = 95 ∨ c.toNat = 45 ∨
    (0xAC00 ≤ c.toNat ∧ c.toNat ≤ 0xD7AF) ∨
    (0x1100 ≤ c.toNat ∧ c.toNat ≤ 0x11FF) ∨
    (0x3130 ≤ c.toNat ∧ c.toNat ≤ 0x318F))

/-! ## NameSanitizer (src/index.js lines 112-122, identical in src/bin/index.js) -/

/-- Model of `name.replace(/[<>:"/\\|?*]/g, '_')` — a per-character replacement. -/
def replaceForbidden (s : JStr) : JStr :=
  s.map fun c => if isForbidden c then '_' else c

/-- Embedding of `minimalSanitizeFilename` from the source: only forbidden characters are
replaced by `_`. -/
def minimalSanitizeFilename (s : JStr) : JStr := replaceForbidden s

/-- Helper for `.replace(/\s+/g, '_')`: the boolean records whether we are
inside a whitespace run whose `_` has already been emitted. -/
def collapseAux : Bool → JStr → JStr
  | _, [] => []
  | inRun, c :: cs =>
    if jsWhitespace c then
      if inRun then collapseAux true cs else '_' :: collapseAux true cs
    else c :: collapseAux false cs

/-- Model of `.replace(/\s+/g, '_')` — each maximal whitespace run becomes one `_`. -/
def collapseWhitespace (s : JStr) : JStr := collapseAux false s

/-- Embedding of `sanitizeFolderName` from the source: forbidden chars to `_`, whitespace
runs to `_`, drop disallowed characters, truncate to 100. -/
def sanitizeFolderName (s : JStr) : JStr :=
  ((collapseWhitespace (replaceForbidden s)).filter allowedFolderChar).take 100

/-- The sanitization pipeline of `sanitizeFolderName` without the final
`.substring(0, 100)` truncation. -/
def sanitizeFolderNameNoTrunc (s : JStr) : JStr :=
  (collapseWhitespace (replaceForbidden s)).filter allowedFolderChar

/-! ## FormatCatalog (src/index.js lines 148-171 and 285-306; the same code
appears verbatim in src/bin/index.js) -/

/-- One entry of the `formats` array of the downloader's metadata.  `vcodec`
and `acodec` use the sentinel `"none"`; `height`, `abr` and `filesize` may be
absent (`none`). -/
structure Format where
  format_id : String
  ext : String
  vcodec : String
  acodec : String
  height : Option Int
  abr : Option Int
  filesize : Option Int
deriving DecidableEq, Repr

/-- JS truthiness of `f.height` (absent, `null` and `0` are falsy). -/
def hasHeight (f : Format) : Bool :=
  match f.height with
  | some h => decide (h ≠ 0)
  | none => false

/-- The numeric height used by the comparator `(a, b) => b.height - a.height`
(only applied to formats that passed the `f.height` truthiness filter). -/
def heightKey (f : Format) : Int := f.height.getD 0

/-- The numeric bitrate used by the comparator
`(a, b) => (b.abr || 0) - (a.abr || 0)`: a missing bitrate counts as 0. -/
def abrKey (f : Format) : Int := f.abr.getD 0

/-- The filter of the combined (video+audio) category:
`f.vcodec !== 'none' && f.acodec !== 'none' && f.height`. -/
def isVideoAudio (f : Format) : Bool :=
  decide (f.vcodec ≠ "none") && decide (f.acodec ≠ "none") && hasHeight f

/-- The filter of the video-only category:
`f.vcodec !== 'none' && f.acodec === 'none' && f.height`. -/
def isVideoOnly (f : Format) : Bool :=
  decide (f.vcodec ≠ "none") && decide (f.acodec = "none") && hasHeight f

/-- The filter of the audio-only category:
`f.vcodec === 'none' && f.acodec !== 'none'`. -/
def isAudioOnly (f : Format) : Bool :=
  decide (f.vcodec = "none") && decide (f.acodec ≠ "none")

/-- Stable insertion used to model `Array.prototype.sort` (which is stable)
with a strictly-descending comparator on `key`: an element moves left past
another only when its key is strictly larger. -/
def insertDesc (key : Format → Int) (x : Format) : List Format → List Format
  | [] => [x]
  | y :: ys => if key y ≤ key x then x :: y :: ys else y :: insertDesc key x ys

/-- Stable sort, descending by `key`: the model of
`.sort((a, b) => key(b) - key(a))` on a JS array. -/
def sortDesc (key : Format → Int) : List Format → List Format
  | [] => []
  | x :: xs => insertDesc key x (sortDesc key xs)

/-- Embedding of `organizeFormats` from the source: partition into the three categories and
sort each. -/
structure OrganizedFormats where
  videoAudio : List Format
  videoOnly : List Format
  audioOnly : List Format
deriving DecidableEq, Repr

def organizeFormats (formats : List Format) : OrganizedFormats where
  videoAudio := sortDesc heightKey (formats.filter isVideoAudio)
  videoOnly := sortDesc heightKey (formats.filter isVideoOnly)
  audioOnly := sortDesc abrKey (formats.filter isAudioOnly)

/-- Embedding of `selectBestFormat` from the source: best combined entry, else best
video-only entry, else `null`. -/
def selectBestFormat (formats : List Format) : Option Format :=
  let videoFormats := formats.filter isVideoAudio
  if videoFormats.length > 0 then (sortDesc heightKey videoFormats).head?
  else
    let videoOnlyFormats := formats.filter isVideoOnly
    if videoOnlyFormats.length > 0 then (sortDesc heightKey videoOnlyFormats).head?
    else none

/-! ## Shared string utilities (models of JS primitives) -/

/-- Model of `String.prototype.trim()` — strip JS whitespace from both ends. -/
def jsTrim (s : JStr) : JStr :=
  ((s.dropWhile jsWhitespace).reverse.dropWhile jsWhitespace).reverse

/-- Model of `path.join(a, b)` on POSIX for the simple segments this program builds. -/
def pathJoin (a b : JStr) : JStr := a ++ '/' :: b

/-! ## Batch driver (src/bin/batch-download.js) -/

/-- What the spawned `youtube …` subprocess did for one line: exited with a
code, or failed to spawn. -/
inductive SpawnOutcome where
  | closed (code : Int)
  | errored (msg : String)
deriving DecidableEq, Repr

/-- Embedding of `processLine` from the source, as the resolution behaviour of the promise
it returns: a blank line resolves immediately; a `close` event resolves for
exit code 0 and also resolves for a non-zero code (the source comments
"실패해도 계속 진행" — continue even on failure); a spawn `error` event also
resolves.  The promise is never rejected. -/
def processLine (line : JStr) (outcome : SpawnOutcome) : Except String Unit :=
  if jsTrim line = [] then .ok ()
  else
    match outcome with
    | .closed code => if code = 0 then .ok () else .ok ()
    | .errored _ => .ok ()

/-- The final tally printed by the batch driver. -/
structure BatchTally where
  total : Nat
  success : Nat
  fail : Nat
deriving DecidableEq, Repr

/-- The per-line loop of `main` in the batch driver: blank lines are skipped
entirely; otherwise `lineCount` is incremented, `processLine` is awaited, and
`successCount` or `failCount` is incremented according to whether the promise
resolved or rejected. -/
def batchMain (lines : List (JStr × SpawnOutcome)) : BatchTally :=
  lines.foldl
    (fun t lo =>
      if jsTrim lo.1 ≠ [] then
        match processLine lo.1 lo.2 with
        | .ok _ => { t with total := t.total + 1, success := t.success + 1 }
        | .error _ => { t with total := t.total + 1, fail := t.fail + 1 }
      else t)
    ⟨0, 0, 0⟩

/-! ## Decimal printing (model of JS number-to-string for the integers this
program prints) -/

/-- The decimal digit character of `n % 10`. -/
def digitChar10 (n : Nat) : Char :=
  match n with
  | 0 => '0' | 1 => '1' | 2 => '2' | 3 => '3' | 4 => '4'
  | 5 => '5' | 6 => '6' | 7 => '7' | 8 => '8' | _ => '9'

/-- Fuel-driven decimal conversion (structural, so it evaluates by `decide`). -/
def natDigitsAux : Nat → Nat → JStr → JStr
  | 0, _, acc => acc
  | fuel + 1, n, acc =>
    if n < 10 then digitChar10 n :: acc
    else natDigitsAux fuel (n / 10) (digitChar10 (n % 10) :: acc)

/-- Decimal representation of a natural number. -/
def natDigits (n : Nat) : JStr := natDigitsAux (n + 1) n []

/-- Decimal representation of an integer (used for `options.quality`). -/
def intDigits (i : Int) : JStr :=
  if i < 0 then '-' :: natDigits i.natAbs else natDigits i.toNat

/-! ## DownloadOrchestrator, entry point A (src/index.js lines 310-381) -/

/-- The options object of entry point A after argv parsing. -/
structure OptionsA where
  folderName : Option JStr := none
  parentFolder : Option JStr := none
  outputDir : Option JStr := none
  filename : Option JStr := none
  audioOnly : Bool := false
  quality : Option Int := none
  auto : Bool := false
deriving DecidableEq, Repr

/-- The `downloadOptions` object handed to the external downloader by entry
point A.  `delete`d properties are modelled as `false`/`none`. -/
structure DownloadOptionsA where
  noPlaylist : Bool
  format : JStr
  mergeOutputFormat : Option JStr
  writeThumbnail : Bool
  writeDescription : Bool
  writeInfoJson : Bool
  extractAudio : Bool
  audioFormat : Option JStr
  output : JStr
deriving DecidableEq, Repr

/-- JS truthiness of `options.quality` (a number: `0` and `NaN` are falsy;
`NaN` from a failed `parseInt` is modelled as `none`). -/
def qualityTruthy (q : Option Int) : Bool :=
  match q with
  | some v => decide (v ≠ 0)
  | none => false

/-- The pure request-construction part of `downloadVideo` in src/index.js:
format-string resolution, output-path resolution (including the unconditional
filename branch that overwrites the `outputDir` branch), and the audio-only
override. -/
def buildRequestA (videoTitle folderName selectedFormat : JStr)
    (options : OptionsA) : DownloadOptionsA :=
  let formatString :=
    if selectedFormat = "auto".toList then
      if qualityTruthy options.quality then
        "bestvideo[height>=".toList ++ intDigits (options.quality.getD 0) ++
          "]+bestaudio/bestvideo+bestaudio/best".toList
      else "bestvideo+bestaudio/best".toList
    else selectedFormat
  let defaultOutputDir :=
    pathJoin (pathJoin "/volume1/media/datas".toList "youtubes".toList) folderName
  let output0 :=
    match options.outputDir with
    | some dir => pathJoin dir "%(title)s.%(ext)s".toList
    | none => pathJoin defaultOutputDir "video.%(ext)s".toList
  -- the filename branch runs unconditionally and overwrites `output0`
  let output1 :=
    match options.filename with
    | some fn => pathJoin defaultOutputDir (fn ++ ".%(ext)s".toList)
    | none =>
      pathJoin defaultOutputDir (minimalSanitizeFilename videoTitle ++ ".%(ext)s".toList)
  let base : DownloadOptionsA :=
    { noPlaylist := true
      format := formatString
      mergeOutputFormat := some "mp4".toList
      writeThumbnail := true
      writeDescription := true
      writeInfoJson := true
      extractAudio := false
      audioFormat := none
      output := let _ := output0; output1 }
  if options.audioOnly then
    { base with
      format := "bestaudio[ext=m4a]/bestaudio".toList
      extractAudio := true
      audioFormat := some "mp3".toList
      writeThumbnail := false
      writeDescription := false }
  else base

/-! ## DownloadOrchestrator, entry point B (src/bin/index.js lines 300-370) -/

/-- JS `x || d` for an optional string: the empty string is falsy. -/
def strOr (x : Option JStr) (d : JStr) : JStr :=
  match x with
  | some s => if s = [] then d else s
  | none => d

/-- The options object of entry point B after argv parsing
(`'parent-folder'` is the key actually written by the parser; `parentFolder`
is also read by `downloadVideo` for compatibility). -/
structure OptionsB where
  description : Bool := false
  json : Bool := false
  parentFolderDash : Option JStr := none
  folderNameDash : Option JStr := none
  outputDir : Option JStr := none
  filename : Option JStr := none
  parentFolder : Option JStr := none
deriving DecidableEq, Repr

/-- A request handed to the external downloader by entry point B (the
`videoOptions`/`audioOptions`/`backupAudioOptions` objects, together with the
URL the call is issued against). -/
structure ReqB where
  url : JStr
  noPlaylist : Bool
  format : JStr
  mergeOutputFormat : Option JStr
  writeThumbnail : Bool
  writeDescription : Bool
  writeInfoJson : Bool
  extractAudio : Bool
  audioFormat : Option JStr
  audioQuality : Option JStr
  output : JStr
deriving DecidableEq, Repr

/-- The default-path branch of entry point B's `downloadVideo`:
`Z:\media[\parentFolder]\safeTitle`. -/
def resolvePathsBDefault (safeTitle : JStr) (opts : OptionsB) : JStr × JStr :=
  let mediaFolder := "Z:\\media".toList
  let parentFolder := strOr opts.parentFolderDash (strOr opts.parentFolder [])
  let outputDir :=
    if parentFolder ≠ [] then pathJoin (pathJoin mediaFolder parentFolder) safeTitle
    else pathJoin mediaFolder safeTitle
  (outputDir, strOr opts.filename safeTitle)

/-- Path resolution at the top of entry point B's `downloadVideo`:
returns `(outputDir, filename)` (an empty `outputDir` string is falsy). -/
def resolvePathsB (title : JStr) (opts : OptionsB) : JStr × JStr :=
  let safeTitle := minimalSanitizeFilename title
  match opts.outputDir with
  | some dir =>
    if dir = [] then resolvePathsBDefault safeTitle opts
    else (dir, strOr opts.filename safeTitle)
  | none => resolvePathsBDefault safeTitle opts

/-- The first (video) request of the two-pass download. -/
def videoReqB (url title : JStr) (opts : OptionsB) : ReqB :=
  let p := resolvePathsB title opts
  { url := url
    noPlaylist := true
    format := "315+140/bestvideo+bestaudio/best".toList
    mergeOutputFormat := some "mp4".toList
    writeThumbnail := true
    writeDescription := opts.description
    writeInfoJson := opts.json
    extractAudio := false
    audioFormat := none
    audioQuality := none
    output := pathJoin p.1 (p.2 ++ ".%(ext)s".toList) }

/-- The second (audio-extraction) request of the two-pass download. -/
def audioReqB (url title : JStr) (opts : OptionsB) : ReqB :=
  let p := resolvePathsB title opts
  { url := url
    noPlaylist := true
    format := "bestaudio".toList
    mergeOutputFormat := none
    writeThumbnail := false
    writeDescription := false
    writeInfoJson := false
    extractAudio := true
    audioFormat := some "mp3".toList
    audioQuality := some "0".toList
    output := pathJoin p.1 (p.2 ++ ".%(ext)s".toList) }

/-- The retried audio request: `{...audioOptions, format: 'bestaudio/best'}`. -/
def backupReqB (url title : JStr) (opts : OptionsB) : ReqB :=
  { audioReqB url title opts with format := "bestaudio/best".toList }

/-- Entry point B's `downloadVideo` control flow against an external
downloader `dl`, recording the requests issued (in order) and the final
outcome: video pass, audio pass, a single retry of the audio pass with the
relaxed selector `bestaudio/best` on failure, all inside a `try` that wraps
any error as a download failure (`다운로드 실패: …`). -/
def runTwoPass (dl : ReqB → Except String Unit) (url title : JStr)
    (opts : OptionsB) : List ReqB × Except String Unit :=
  let v := videoReqB url title opts
  match dl v with
  | .error e => ([v], .error ("다운로드 실패: " ++ e))
  | .ok _ =>
    let a := audioReqB url title opts
    match dl a with
    | .ok _ => ([v, a], .ok ())
    | .error _ =>
      let b := backupReqB url title opts
      match dl b with
      | .ok _ => ([v, a, b], .ok ())
      | .error e2 => ([v, a, b], .error ("다운로드 실패: " ++ e2))

/-- Entry point A's `downloadVideo` issues exactly one downloader call, with
any error wrapped as a download failure — there is no retry in entry point A. -/
def runSingleA (dl : DownloadOptionsA → Except String Unit)
    (req : DownloadOptionsA) : List DownloadOptionsA × Except String Unit :=
  ([req],
    match dl req with
    | .ok _ => .ok ()
    | .error e => .error ("다운로드 실패: " ++ e))

/-! ## CLI entry points (src/index.js `main`, src/bin/index.js `main`) -/

/-- Model of `s.startsWith('--')`. -/
def startsWithDashDash (s : JStr) : Bool := List.isPrefixOf "--".toList s

/-- Model of `a.includes(pat)` — substring containment. -/
def occursIn (pat : JStr) : JStr → Bool
  | [] => pat.isEmpty
  | c :: cs => List.isPrefixOf pat (c :: cs) || occursIn pat cs

/-- Numeric value of a non-empty digit string. -/
def natOfDigits (ds : JStr) : Nat := ds.foldl (fun a c => a * 10 + (c.toNat - 48)) 0

/-- JS `parseInt(s)` restricted to base 10: skip leading whitespace, optional
sign, then the longest digit prefix; `NaN` (no digits) is `none`. -/
def parseIntJS (s : JStr) : Option Int :=
  let t := s.dropWhile jsWhitespace
  match t with
  | '-' :: r =>
    if (r.takeWhile Char.isDigit) = [] then none
    else some (-(natOfDigits (r.takeWhile Char.isDigit) : Int))
  | '+' :: r =>
    if (r.takeWhile Char.isDigit) = [] then none
    else some ((natOfDigits (r.takeWhile Char.isDigit) : Int))
  | r =>
    if (r.takeWhile Char.isDigit) = [] then none
    else some ((natOfDigits (r.takeWhile Char.isDigit) : Int))

/-- The argv loop of entry point A's `main`: recognized flags set options
(value flags consume the next argument), and an argument that is not a flag
and not a consumed value is collected as a positional argument.  (When a
value flag is the final argument the source would throw on
`args[i].startsWith`; the model simply ends the loop there, a case none of
the theorems below depends on.) -/
def parseLoopA : List JStr → OptionsA → OptionsA × List JStr
  | [], o => (o, [])
  | a :: rest, o =>
    if a = "--folderName".toList then
      match rest with
      | v :: rest' => parseLoopA rest' { o with folderName := some v }
      | [] => (o, [])
    else if a = "--parentFolder".toList then
      match rest with
      | v :: rest' => parseLoopA rest' { o with parentFolder := some v }
      | [] => (o, [])
    else if a = "--output-dir".toList then
      match rest with
      | v :: rest' => parseLoopA rest' { o with outputDir := some v }
      | [] => (o, [])
    else if a = "--filename".toList then
      match rest with
      | v :: rest' => parseLoopA rest' { o with filename := some v }
      | [] => (o, [])
    else if a = "--audio-only".toList then parseLoopA rest { o with audioOnly := true }
    else if a = "--quality".toList then
      match rest with
      | v :: rest' => parseLoopA rest' { o with quality := parseIntJS v }
      | [] => (o, [])
    else if a = "--auto".toList then parseLoopA rest { o with auto := true }
    else
      let r := parseLoopA rest o
      if startsWithDashDash a then r else (r.1, a :: r.2)

/-- The outcome of a `main` invocation before any external call is made. -/
inductive CliAction where
  /-- usage printed, normal return (exit status 0) -/
  | usage
  /-- missing-URL error printed (entry point A also reprints usage), return -/
  | missingUrl
  /-- invalid-URL error printed, return -/
  | invalidUrl
  /-- validation passed; continue with this URL -/
  | proceedA (url : JStr) (opts : OptionsA)
  /-- validation passed; continue with this URL -/
  | proceedB (url : JStr) (opts : OptionsB)
deriving DecidableEq, Repr

/-- Entry point A's `main` up to its first external call: help/empty check,
argv parsing, URL extraction and URL validation.  Note the help check tests
only `--help` (and emptiness), not `-h`. -/
def mainActionA (args : List JStr) : CliAction :=
  if "--help".toList ∈ args ∨ args.length = 0 then .usage
  else
    let pr := parseLoopA args {}
    match pr.2 with
    | [] => .missingUrl
    | url :: _ =>
      if occursIn "youtube.com".toList url || occursIn "youtu.be".toList url then
        .proceedA url pr.1
      else .invalidUrl

/-- The valued-flag parsing of entry point B's `main`: for each flag of the
options map, take the argument following its first occurrence unless that
argument itself starts with `--`. -/
def optValB (args : List JStr) (flag : JStr) : Option JStr :=
  let idx := args.indexOf flag
  if idx < args.length ∧ idx + 1 < args.length ∧
      ¬ startsWithDashDash (args.getD (idx + 1) []) = true then
    some (args.getD (idx + 1) [])
  else none

/-- The options object built by entry point B's `main`. -/
def parseOptsB (args : List JStr) : OptionsB where
  description := "--desc".toList ∈ args ∨ "--description".toList ∈ args
  json := "--json".toList ∈ args
  parentFolderDash := optValB args "--parent-folder".toList
  folderNameDash := optValB args "--folder-name".toList
  outputDir := optValB args "--output-dir".toList
  filename := optValB args "--filename".toList
  parentFolder := none

/-- The `url` extraction of entry point B: the first argument that is not a flag
and whose predecessor is not a flag. -/
def findUrlB (args : List JStr) : Option JStr :=
  (args.enum.find? fun p =>
    !startsWithDashDash p.2 &&
      (decide (p.1 = 0) || !startsWithDashDash (args.getD (p.1 - 1) []))).map (·.2)

/-- The YouTube-ID character class `[a-zA-Z0-9_-]`. -/
def isIdChar (c : Char) : Bool :=
  decide ((48 ≤ c.toNat ∧ c.toNat ≤ 57) ∨ (65 ≤ c.toNat ∧ c.toNat ≤ 90) ∨
    (97 ≤ c.toNat ∧ c.toNat ≤ 122) ∨ c.toNat = 95 ∨ c.toNat = 45)

/-- Entry point B's `main` up to its first external call: help/empty check
(`--help`, `-h` or no arguments), option parsing, URL extraction, and URL
validation with 11-character video-ID expansion. -/
def mainActionB (args : List JStr) : CliAction :=
  if "--help".toList ∈ args ∨ "-h".toList ∈ args ∨ args.length = 0 then .usage
  else
    match findUrlB args with
    | none => .missingUrl
    | some url =>
      if occursIn "youtube.com".toList url || occursIn "youtu.be".toList url then
        .proceedB url (parseOptsB args)
      else if url.length = 11 ∧ url.all isIdChar then
        .proceedB ("https://www.youtube.com/watch?v=".toList ++ url) (parseOptsB args)
      else .invalidUrl

/-! ## PlaceholderSubstitution (src/index.js lines 63-110, identical in
src/bin/index.js)

`String.prototype.replace` with a global literal pattern is modelled by
`replaceAll`, a left-to-right scan replacing every non-overlapping
occurrence.  The recursion is driven by a fuel argument equal to the string
length so that every definition stays structurally recursive (and therefore
kernel-evaluable); `replaceAllF_fuel_irrel` shows any sufficient fuel gives
the same result. -/

/-- Fuel-driven body of `replaceAll`. -/
def replaceAllF : Nat → JStr → JStr → JStr → JStr
  | 0, _, _, s => s
  | _ + 1, _, _, [] => []
  | fuel + 1, p, v, c :: cs =>
    if p ≠ [] ∧ List.isPrefixOf p (c :: cs) then
      v ++ replaceAllF fuel p v ((c :: cs).drop p.length)
    else c :: replaceAllF fuel p v cs

/-- Model of `s.replace(/p/g, v)` for a non-empty literal pattern `p`. -/
def replaceAll (p v s : JStr) : JStr := replaceAllF s.length p v s

/-- Spec-side: find the first pattern of `L` matching at the front of `s`;
on success also return the remainder of `s` after the match. -/
def findTok (L : List (JStr × JStr)) (s : JStr) : Option ((JStr × JStr) × JStr) :=
  match L with
  | [] => none
  | pv :: rest =>
    if pv.1 ≠ [] ∧ List.isPrefixOf pv.1 s then some (pv, s.drop pv.1.length)
    else findTok rest s

/-- Spec-side, fuel-driven: scan `s` left to right, replacing each occurrence
of a pattern of `L` by its value in a single simultaneous pass. -/
def scanF : Nat → List (JStr × JStr) → JStr → JStr
  | 0, _, s => s
  | _ + 1, _, [] => []
  | fuel + 1, L, c :: cs =>
    match findTok L (c :: cs) with
    | some pr => pr.1.2 ++ scanF fuel L pr.2
    | none => c :: scanF fuel L cs

/-- Spec-side simultaneous substitution: every occurrence of every pattern of
`L` (scanning left to right) is replaced by its value, all other text is kept
verbatim. -/
def simultSubst (L : List (JStr × JStr)) (s : JStr) : JStr := scanF s.length L s

/-- ASCII letter (the characters appearing in placeholder token names). -/
def isLetterChar (c : Char) : Bool :=
  decide ((65 ≤ c.toNat ∧ c.toNat ≤ 90) ∨ (97 ≤ c.toNat ∧ c.toNat ≤ 122))

/-- Digit or underscore (the characters appearing in substituted values). -/
def isValChar (c : Char) : Bool :=
  decide ((48 ≤ c.toNat ∧ c.toNat ≤ 57) ∨ c.toNat = 95)

/-- A placeholder pattern: `{` followed by a non-empty letter name and `}`. -/
def IsPat (p : JStr) : Prop :=
  ∃ nm, p = '{' :: (nm ++ ['}']) ∧ nm ≠ [] ∧ ∀ c ∈ nm, isLetterChar c = true

/-- A substitutable value: non-empty, digits and underscores only. -/
def GoodVal (v : JStr) : Prop := v ≠ [] ∧ ∀ c ∈ v, isValChar c = true

/-- The value object returned by `getCurrentDateTime`. -/
structure DateTimeContext where
  fullTime : JStr
  date : JStr
  year : JStr
  y : JStr
  month : JStr
  m : JStr
  day : JStr
  d : JStr
  time : JStr
  hour : JStr
  h : JStr
  minute : JStr
  min : JStr
  second : JStr
  sec : JStr
deriving DecidableEq, Repr

/-- The components `new Date()` is queried for. -/
structure JSDate where
  fullYear : Nat
  monthIndex : Nat
  dayOfMonth : Nat
  hours : Nat
  minutes : Nat
  seconds : Nat
deriving DecidableEq, Repr

/-- Model of `.toString().slice(-2)` — the last two characters. -/
def sliceLast2 (s : JStr) : JStr := s.drop (s.length - 2)

/-- Model of `.padStart(2, '0')`. -/
def padStart2 (s : JStr) : JStr :=
  if 2 ≤ s.length then s else List.replicate (2 - s.length) '0' ++ s

/-- Embedding of `getCurrentDateTime` from the source, with the `new Date()` components
injected (the spec's injectable time source). -/
def getCurrentDateTime (now : JSDate) : DateTimeContext :=
  let year := sliceLast2 (natDigits now.fullYear)
  let month := padStart2 (natDigits (now.monthIndex + 1))
  let day := padStart2 (natDigits now.dayOfMonth)
  let hours := padStart2 (natDigits now.hours)
  let minutes := padStart2 (natDigits now.minutes)
  let seconds := padStart2 (natDigits now.seconds)
  { fullTime := year ++ month ++ day ++ '_' :: (hours ++ minutes ++ seconds)
    date := year ++ month ++ day
    year := year, y := year
    month := month, m := month
    day := day, d := day
    time := hours ++ minutes ++ seconds
    hour := hours, h := hours
    minute := minutes, min := minutes
    second := seconds, sec := seconds }

/-- The fifteen replacement passes of `replacePlaceholders`, in source order. -/
def tokPairs (dt : DateTimeContext) : List (JStr × JStr) :=
  [("{fullTime}".toList, dt.fullTime),
   ("{date}".toList, dt.date),
   ("{year}".toList, dt.year),
   ("{y}".toList, dt.y),
   ("{month}".toList, dt.month),
   ("{m}".toList, dt.m),
   ("{day}".toList, dt.day),
   ("{d}".toList, dt.d),
   ("{time}".toList, dt.time),
   ("{hour}".toList, dt.hour),
   ("{h}".toList, dt.h),
   ("{minute}".toList, dt.minute),
   ("{min}".toList, dt.min),
   ("{second}".toList, dt.second),
   ("{sec}".toList, dt.sec)]

/-- Embedding of `replacePlaceholders` from the source: fifteen sequential global
`.replace(/{tok}/g, value)` passes over the template. -/
def replacePlaceholders (dt : DateTimeContext) (s : JStr) : JStr :=
  (tokPairs dt).foldl (fun acc pv => replaceAll pv.1 pv.2 acc) s

/-! ## Theorems -/

theorem sanitizeFolderName_eq_take (s : JStr) :
    sanitizeFolderName s = (sanitizeFolderNameNoTrunc s).take 100 := rfl

/-! ### Character-class facts -/
theorem allowed_not_forbidden {c : Char} (h : allowedFolderChar c = true) :
    isForbidden c = false := by
  simp only [isForbidden, decide_eq_false_iff_not]
  intro hc
  rcases hc with h' | h' | h' | h' | h' | h' | h' | h' | h' <;>
    (subst h'; revert h; decide)

theorem allowed_not_whitespace {c : Char} (h : allowedFolderChar c = true) :
    jsWhitespace c = false := by
  simp only [allowedFolderChar, decide_eq_true_eq] at h
  simp only [jsWhitespace, decide_eq_false_iff_not]
  intro hc
  omega

/-! ### Claim C6: the sanitization/truncation contract -/
theorem mem_collapseAux_of {cs : JStr} {b : Bool} {c : Char}
    (h : c ∈ collapseAux b cs) : c = '_' ∨ c ∈ cs := by
  induction cs generalizing b with
  | nil => simp [collapseAux] at h
  | cons d ds ih =>
    simp only [collapseAux] at h
    by_cases hw : jsWhitespace d
    · simp only [hw, if_true] at h
      cases b with
      | true =>
        simp only [if_true] at h
        rcases ih h with h' | h'
        · exact Or.inl h'
        · exact Or.inr (List.mem_cons_of_mem _ h')
      | false =>
        simp only [Bool.false_eq_true, if_false, List.mem_cons] at h
        rcases h with h | h
        · exact Or.inl h
        · rcases ih h with h' | h'
          · exact Or.inl h'
          · exact Or.inr (List.mem_cons_of_mem _ h')
    · simp only [hw, Bool.false_eq_true, if_false, List.mem_cons] at h
      rcases h with h | h
      · exact Or.inr (h ▸ List.mem_cons_self d ds)
      · rcases ih h with h' | h'
        · exact Or.inl h'
        · exact Or.inr (List.mem_cons_of_mem _ h')

theorem sanitize_length_le (s : JStr) : (sanitizeFolderName s).length ≤ 100 := by
  simp [sanitizeFolderName]

theorem sanitize_all_allowed (s : JStr) :
    ∀ c ∈ sanitizeFolderName s, allowedFolderChar c = true := by
  intro c hc
  have hc' : c ∈ sanitizeFolderNameNoTrunc s :=
    List.take_subset 100 (sanitizeFolderNameNoTrunc s)
      (by simpa [sanitizeFolderName_eq_take] using hc)
  exact (List.mem_filter.mp hc').2

/-- C6: `sanitizeFolderName` applies (a) forbidden-character replacement,
(b) whitespace collapsing, (c) disallowed-character removal and (d) length
truncation in this order; consequently the result is at most 100 characters
long, contains only allowed characters, and is a prefix of the untruncated
sanitized string (truncation happens after sanitization, never before). -/
theorem sanitizeFolderName_spec (s : JStr) :
    (sanitizeFolderName s).length ≤ 100 ∧
    (∀ c ∈ sanitizeFolderName s, allowedFolderChar c = true) ∧
    (∃ t, sanitizeFolderName s ++ t = sanitizeFolderNameNoTrunc s) := by
  refine ⟨sanitize_length_le s, sanitize_all_allowed s,
    ⟨(sanitizeFolderNameNoTrunc s).drop 100, ?_⟩⟩
  rw [sanitizeFolderName_eq_take]
  exact List.take_append_drop 100 (sanitizeFolderNameNoTrunc s)

/-! ### Claim C10: idempotence of `sanitizeFolderName` -/
theorem replaceForbidden_of_allowed {l : JStr}
    (h : ∀ c ∈ l, allowedFolderChar c = true) : replaceForbidden l = l := by
  unfold replaceForbidden
  rw [show l.map (fun c => if isForbidden c then '_' else c) = l.map id by
    apply List.map_congr_left
    intro a ha
    simp [allowed_not_forbidden (h a ha)]]
  exact l.map_id

theorem collapseAux_of_no_whitespace {l : JStr} {b : Bool}
    (h : ∀ c ∈ l, jsWhitespace c = false) : collapseAux b l = l := by
  induction l generalizing b with
  | nil => rfl
  | cons d ds ih =>
    have hd := h d (List.mem_cons_self d ds)
    simp only [collapseAux, hd, Bool.false_eq_true, if_false]
    exact congrArg (d :: ·) (ih fun c hc => h c (List.mem_cons_of_mem d hc))

theorem sanitizeFolderName_fixed {x : JStr} (hlen : x.length ≤ 100)
    (hall : ∀ c ∈ x, allowedFolderChar c = true) : sanitizeFolderName x = x := by
  unfold sanitizeFolderName collapseWhitespace
  rw [replaceForbidden_of_allowed hall,
    collapseAux_of_no_whitespace (fun c hc => allowed_not_whitespace (hall c hc)),
    List.filter_eq_self.mpr hall]
  exact List.take_of_length_le hlen

/-- C10: `sanitizeFolderName` is idempotent, because its output contains no
forbidden characters, no whitespace, only allowed characters, and is already
at most 100 characters long. -/
theorem sanitizeFolderName_idem (s : JStr) :
    sanitizeFolderName (sanitizeFolderName s) = sanitizeFolderName s :=
  sanitizeFolderName_fixed (sanitize_length_le s) (sanitize_all_allowed s)

/-! ### Sorting lemmas -/
theorem insertDesc_perm (key : Format → Int) (x : Format) (l : List Format) :
    List.Perm (insertDesc key x l) (x :: l) := by
  induction l with
  | nil => exact List.Perm.refl _
  | cons y ys ih =>
    unfold insertDesc
    by_cases h : key y ≤ key x
    · simp [h]
    · simp only [h, if_false]
      exact (ih.cons y).trans (List.Perm.swap x y ys)

theorem sortDesc_perm (key : Format → Int) (l : List Format) :
    List.Perm (sortDesc key l) l := by
  induction l with
  | nil => exact List.Perm.refl _
  | cons x xs ih => exact (insertDesc_perm key x (sortDesc key xs)).trans (ih.cons x)

theorem insertDesc_sorted (key : Format → Int) (x : Format) {l : List Format}
    (h : l.Pairwise fun a b => key b ≤ key a) :
    (insertDesc key x l).Pairwise fun a b => key b ≤ key a := by
  induction l with
  | nil => simp [insertDesc]
  | cons y ys ih =>
    rcases List.pairwise_cons.mp h with ⟨hy, hys⟩
    unfold insertDesc
    by_cases hk : key y ≤ key x
    · simp only [hk, if_true]
      refine List.pairwise_cons.mpr ⟨?_, h⟩
      intro b hb
      rcases List.mem_cons.mp hb with rfl | hb
      · exact hk
      · exact le_trans (hy b hb) hk
    · simp only [hk, if_false]
      refine List.pairwise_cons.mpr ⟨?_, ih hys⟩
      intro b hb
      rcases List.mem_cons.mp ((insertDesc_perm key x ys).mem_iff.mp hb) with rfl | hb
      · exact le_of_not_le hk
      · exact hy b hb

theorem sortDesc_sorted (key : Format → Int) (l : List Format) :
    (sortDesc key l).Pairwise fun a b => key b ≤ key a := by
  induction l with
  | nil => simp [sortDesc]
  | cons x xs ih => exact insertDesc_sorted key x ih

/-- Stability: among elements with any fixed key value, the sort preserves the
original relative order. -/
theorem insertDesc_filter_key (key : Format → Int) (x : Format) (l : List Format)
    (k : Int) :
    (insertDesc key x l).filter (fun a => decide (key a = k)) =
      (x :: l).filter (fun a => decide (key a = k)) := by
  induction l with
  | nil => rfl
  | cons y ys ih =>
    unfold insertDesc
    by_cases hk : key y ≤ key x
    · simp [hk]
    · simp only [hk, if_false]
      by_cases hx : key x = k <;> by_cases hy : key y = k
      · exact absurd (le_of_eq (hy.trans hx.symm)) hk
      · simp [List.filter_cons, hx, hy, ih]
      · simp [List.filter_cons, hx, hy, ih]
      · simp [List.filter_cons, hx, hy, ih]

theorem sortDesc_filter_key (key : Format → Int) (l : List Format) (k : Int) :
    (sortDesc key l).filter (fun a => decide (key a = k)) =
      l.filter (fun a => decide (key a = k)) := by
  induction l with
  | nil => rfl
  | cons x xs ih =>
    rw [sortDesc, insertDesc_filter_key, List.filter_cons, List.filter_cons, ih]

/-- The head of the descending sort is a maximum of the list. -/
theorem sortDesc_head_max (key : Format → Int) {l : List Format} (hl : l ≠ []) :
    ∃ r, (sortDesc key l).head? = some r ∧ r ∈ l ∧ ∀ g ∈ l, key g ≤ key r := by
  have hperm := sortDesc_perm key l
  have hsorted := sortDesc_sorted key l
  have hne : sortDesc key l ≠ [] := by
    intro h
    rw [h] at hperm
    exact hl (List.Perm.eq_nil hperm.symm)
  obtain ⟨r, rs, hr⟩ := List.exists_cons_of_ne_nil hne
  refine ⟨r, by simp [hr], ?_, ?_⟩
  · exact hperm.mem_iff.mp (hr ▸ List.mem_cons_self r rs)
  · intro g hg
    rcases (hperm.mem_iff.mpr hg) with hg'
    rw [hr] at hg'
    rcases List.mem_cons.mp hg' with rfl | hg'
    · exact le_refl _
    · have := List.pairwise_cons.mp (hr ▸ hsorted)
      exact this.1 g hg'

/-! ### Claim C4: `organizeFormats` partitions and sorts the three categories -/

/-- C4: `organizeFormats` puts exactly the combined descriptors (video codec
and audio codec not `"none"`, height present) into `videoAudio` sorted stably
descending by height; exactly the video-only descriptors into `videoOnly`
sorted the same way; and exactly the audio-only descriptors (video codec
`"none"`, audio codec not `"none"`) into `audioOnly` sorted descending by
bitrate with a missing bitrate treated as 0; each sort is stable (elements of
equal key keep their original relative order). -/
theorem organizeFormats_spec (fs : List Format) :
    (List.Perm (organizeFormats fs).videoAudio (fs.filter isVideoAudio) ∧
      (organizeFormats fs).videoAudio.Pairwise (fun a b => heightKey b ≤ heightKey a) ∧
      ∀ k, (organizeFormats fs).videoAudio.filter (fun a => decide (heightKey a = k)) =
        (fs.filter isVideoAudio).filter (fun a => decide (heightKey a = k))) ∧
    (List.Perm (organizeFormats fs).videoOnly (fs.filter isVideoOnly) ∧
      (organizeFormats fs).videoOnly.Pairwise (fun a b => heightKey b ≤ heightKey a) ∧
      ∀ k, (organizeFormats fs).videoOnly.filter (fun a => decide (heightKey a = k)) =
        (fs.filter isVideoOnly).filter (fun a => decide (heightKey a = k))) ∧
    (List.Perm (organizeFormats fs).audioOnly (fs.filter isAudioOnly) ∧
      (organizeFormats fs).audioOnly.Pairwise (fun a b => abrKey b ≤ abrKey a) ∧
      ∀ k, (organizeFormats fs).audioOnly.filter (fun a => decide (abrKey a = k)) =
        (fs.filter isAudioOnly).filter (fun a => decide (abrKey a = k))) :=
  ⟨⟨sortDesc_perm _ _, sortDesc_sorted _ _, fun k => sortDesc_filter_key _ _ k⟩,
    ⟨sortDesc_perm _ _, sortDesc_sorted _ _, fun k => sortDesc_filter_key _ _ k⟩,
    ⟨sortDesc_perm _ _, sortDesc_sorted _ _, fun k => sortDesc_filter_key _ _ k⟩⟩

/-! ### Claim C3: `selectBestFormat` -/

/-- C3: `selectBestFormat` returns a maximum-height element of the combined
category when non-empty, else a maximum-height element of the video-only
category when non-empty, else `none`; it never returns an audio-only
descriptor. -/
theorem selectBestFormat_spec (fs : List Format) :
    (fs.filter isVideoAudio ≠ [] →
      ∃ r, selectBestFormat fs = some r ∧ r ∈ fs.filter isVideoAudio ∧
        ∀ g ∈ fs.filter isVideoAudio, heightKey g ≤ heightKey r) ∧
    (fs.filter isVideoAudio = [] → fs.filter isVideoOnly ≠ [] →
      ∃ r, selectBestFormat fs = some r ∧ r ∈ fs.filter isVideoOnly ∧
        ∀ g ∈ fs.filter isVideoOnly, heightKey g ≤ heightKey r) ∧
    (fs.filter isVideoAudio = [] → fs.filter isVideoOnly = [] →
      selectBestFormat fs = none) ∧
    (∀ r, selectBestFormat fs = some r → isAudioOnly r = false) := by
  refine ⟨?_, ?_, ?_, ?_⟩
  · intro h
    obtain ⟨r, hh, hm, hmax⟩ := sortDesc_head_max heightKey h
    refine ⟨r, ?_, hm, hmax⟩
    simp only [selectBestFormat]
    rw [if_pos (by simpa [List.length_pos] using h)]
    exact hh
  · intro h1 h2
    obtain ⟨r, hh, hm, hmax⟩ := sortDesc_head_max heightKey h2
    refine ⟨r, ?_, hm, hmax⟩
    simp only [selectBestFormat]
    rw [if_neg (by simp [h1]), if_pos (by simpa [List.length_pos] using h2)]
    exact hh
  · intro h1 h2
    simp [selectBestFormat, h1, h2]
  · intro r hr
    simp only [selectBestFormat] at hr
    by_cases h1 : (fs.filter isVideoAudio).length > 0
    · rw [if_pos h1] at hr
      have hmem : r ∈ sortDesc heightKey (fs.filter isVideoAudio) :=
        List.mem_of_mem_head? hr
      have := (List.mem_filter.mp
        ((sortDesc_perm heightKey _).mem_iff.mp hmem)).2
      simp only [isVideoAudio, Bool.and_eq_true, decide_eq_true_eq] at this
      simp only [isAudioOnly, Bool.and_eq_true, decide_eq_true_eq]
      simp only [Bool.and_eq_false_iff, decide_eq_false_iff_not]
      exact Or.inl this.1.1
    · rw [if_neg h1] at hr
      by_cases h2 : (fs.filter isVideoOnly).length > 0
      · rw [if_pos h2] at hr
        have hmem : r ∈ sortDesc heightKey (fs.filter isVideoOnly) :=
          List.mem_of_mem_head? hr
        have := (List.mem_filter.mp
          ((sortDesc_perm heightKey _).mem_iff.mp hmem)).2
        simp only [isVideoOnly, Bool.and_eq_true, decide_eq_true_eq] at this
        simp only [isAudioOnly, Bool.and_eq_false_iff, decide_eq_false_iff_not]
        exact Or.inl this.1.1
      · rw [if_neg h2] at hr
        exact absurd hr (by simp)

/-- Witness for C3 at a concrete format list: a combined 1080p entry wins over
a 2160p video-only entry and an audio-only entry. -/
theorem selectBestFormat_spec_witness :
    ∃ r, selectBestFormat
        [⟨"137", "mp4", "vp9", "aac", some 1080, none, none⟩,
         ⟨"313", "webm", "vp9", "none", some 2160, none, none⟩,
         ⟨"140", "m4a", "none", "mp3", none, some 128, none⟩] = some r ∧
      r ∈ List.filter isVideoAudio
        [⟨"137", "mp4", "vp9", "aac", some 1080, none, none⟩,
         ⟨"313", "webm", "vp9", "none", some 2160, none, none⟩,
         ⟨"140", "m4a", "none", "mp3", none, some 128, none⟩] ∧
      ∀ g ∈ List.filter isVideoAudio
        [⟨"137", "mp4", "vp9", "aac", some 1080, none, none⟩,
         ⟨"313", "webm", "vp9", "none", some 2160, none, none⟩,
         ⟨"140", "m4a", "none", "mp3", none, some 128, none⟩],
        heightKey g ≤ heightKey r :=
  (selectBestFormat_spec _).1 (by decide)

theorem processLine_resolves (line : JStr) (outcome : SpawnOutcome) :
    processLine line outcome = .ok () := by
  unfold processLine
  rcases outcome with code | msg
  · by_cases h : jsTrim line = [] <;> by_cases hc : code = 0 <;> simp [h, hc]
  · by_cases h : jsTrim line = [] <;> simp [h]

theorem batchMain_foldl (lines : List (JStr × SpawnOutcome)) (t : BatchTally) :
    lines.foldl
      (fun t lo =>
        if jsTrim lo.1 ≠ [] then
          match processLine lo.1 lo.2 with
          | .ok _ => { t with total := t.total + 1, success := t.success + 1 }
          | .error _ => { t with total := t.total + 1, fail := t.fail + 1 }
        else t) t =
    { t with
      total := t.total + (lines.filter (fun lo => !(jsTrim lo.1).isEmpty)).length,
      success := t.success + (lines.filter (fun lo => !(jsTrim lo.1).isEmpty)).length } := by
  induction lines generalizing t with
  | nil => simp
  | cons lo rest ih =>
    rw [List.foldl_cons, List.filter_cons]
    by_cases h : jsTrim lo.1 = []
    · have h2 : ¬((!(jsTrim lo.1).isEmpty) = true) := by simp [h]
      rw [if_neg (by simp [h]), if_neg h2]
      exact ih t
    · have h2 : (!(jsTrim lo.1).isEmpty) = true := by simp [List.isEmpty_iff, h]
      rw [if_pos h, if_pos h2, processLine_resolves lo.1 lo.2]
      dsimp only
      rw [ih]
      simp only [List.length_cons]
      congr 1 <;> omega

/-- C2: no line of a batch aborts the remaining ones, and the final tally
counts every non-blank line as a success with `fail = 0` — `successCount` is
incremented whenever `processLine` resolves, which it always does, regardless
of the subprocess exit code; in particular a 3-line file whose second line
exits non-zero reports `total = 3, success = 3, fail = 0`. -/
theorem batchMain_spec :
    (∀ lines : List (JStr × SpawnOutcome),
      batchMain lines =
        { total := (lines.filter (fun lo => !(jsTrim lo.1).isEmpty)).length,
          success := (lines.filter (fun lo => !(jsTrim lo.1).isEmpty)).length,
          fail := 0 }) ∧
    batchMain
      [("https://youtu.be/a".toList, .closed 0),
       ("https://youtu.be/b".toList, .closed 1),
       ("https://youtu.be/c".toList, .closed 0)] = ⟨3, 3, 0⟩ := by
  constructor
  · intro lines
    rw [batchMain, batchMain_foldl]
    simp
  · rfl

/-! ### Claim C1: the `outputDir`/filename resolution -/

/-- C1 (refutation of the `outputDir` half): with `options.outputDir` set the
built request still writes under the fixed default directory
`/volume1/media/datas/youtubes/<folderName>/` — the `outputDir` branch is
unconditionally overwritten by the filename branch — while the filename half
of the claim does hold (`options.filename` when set, else the minimally
sanitized title). -/
theorem buildRequestA_outputDir_ignored :
    (buildRequestA "video".toList "myfolder".toList "auto".toList
        { outputDir := some "/tmp/out".toList }).output =
      "/volume1/media/datas/youtubes/myfolder/video.%(ext)s".toList ∧
    List.isPrefixOf "/tmp/out".toList
      (buildRequestA "video".toList "myfolder".toList "auto".toList
        { outputDir := some "/tmp/out".toList }).output = false := by
  decide

/-! ### Claim C7: format-string resolution and the audio-only override -/

/-- C7: with the `"auto"` sentinel the format string is
`bestvideo[height>=Q]+bestaudio/bestvideo+bestaudio/best` when a (truthy)
quality `Q` is configured and `bestvideo+bestaudio/best` otherwise; a concrete
selection is passed through unchanged; and `options.audioOnly` overrides the
format with the audio-extraction selector and suppresses the thumbnail and
description side files. -/
theorem buildRequestA_format_spec :
    (∀ (t f : JStr) (o : OptionsA) (q : Int), o.audioOnly = false →
      o.quality = some q → q ≠ 0 →
      (buildRequestA t f "auto".toList o).format =
        "bestvideo[height>=".toList ++ intDigits q ++
          "]+bestaudio/bestvideo+bestaudio/best".toList) ∧
    (∀ (t f : JStr) (o : OptionsA), o.audioOnly = false →
      qualityTruthy o.quality = false →
      (buildRequestA t f "auto".toList o).format =
        "bestvideo+bestaudio/best".toList) ∧
    (∀ (t f sel : JStr) (o : OptionsA), o.audioOnly = false →
      sel ≠ "auto".toList →
      (buildRequestA t f sel o).format = sel) ∧
    (∀ (t f sel : JStr) (o : OptionsA), o.audioOnly = true →
      (buildRequestA t f sel o).format = "bestaudio[ext=m4a]/bestaudio".toList ∧
      (buildRequestA t f sel o).extractAudio = true ∧
      (buildRequestA t f sel o).writeThumbnail = false ∧
      (buildRequestA t f sel o).writeDescription = false ∧
      (buildRequestA t f sel o).writeInfoJson = true) := by
  refine ⟨?_, ?_, ?_, ?_⟩
  · intro t f o q hao hq hq0
    simp [buildRequestA, hao, hq, qualityTruthy, hq0]
  · intro t f o hao hq
    simp [buildRequestA, hao, hq]
  · intro t f sel o hao hsel
    have hsel' : ¬(sel = ['a', 'u', 't', 'o']) := by simpa using hsel
    simp [buildRequestA, hao, hsel']
  · intro t f sel o hao
    simp [buildRequestA, hao]

/-- Witness for C7 at concrete inputs. -/
theorem buildRequestA_format_spec_witness :
    (buildRequestA "t".toList "f".toList "auto".toList
        { quality := some 1080 }).format =
      "bestvideo[height>=".toList ++ intDigits 1080 ++
        "]+bestaudio/bestvideo+bestaudio/best".toList :=
  buildRequestA_format_spec.1 "t".toList "f".toList { quality := some 1080 }
    1080 rfl rfl (by decide)

/-! ### Claim C8: the one-shot audio retry -/

/-- C8: after the video request succeeds, a second audio-only request is
issued against the same URL and output target; if that audio request fails
there is exactly one retry, with the relaxed selector `bestaudio/best`; if the
retry also fails the error is surfaced wrapped as a download failure; at most
three requests are ever issued, a failing video request is not retried, and
entry point A issues exactly one request — the audio retry is the only
automatic retry in the system. -/
theorem runTwoPass_spec :
    (∀ (url title : JStr) (opts : OptionsB),
      (audioReqB url title opts).url = (videoReqB url title opts).url ∧
      (audioReqB url title opts).output = (videoReqB url title opts).output ∧
      (audioReqB url title opts).extractAudio = true) ∧
    (∀ (dl : ReqB → Except String Unit) url title opts,
      dl (videoReqB url title opts) = .ok () →
      dl (audioReqB url title opts) = .ok () →
      runTwoPass dl url title opts =
        ([videoReqB url title opts, audioReqB url title opts], .ok ())) ∧
    (∀ (dl : ReqB → Except String Unit) url title opts e,
      dl (videoReqB url title opts) = .ok () →
      dl (audioReqB url title opts) = .error e →
      (runTwoPass dl url title opts).1 =
        [videoReqB url title opts, audioReqB url title opts,
          backupReqB url title opts] ∧
      (backupReqB url title opts).format = "bestaudio/best".toList ∧
      (dl (backupReqB url title opts) = .ok () →
        (runTwoPass dl url title opts).2 = .ok ()) ∧
      (∀ e2, dl (backupReqB url title opts) = .error e2 →
        (runTwoPass dl url title opts).2 = .error ("다운로드 실패: " ++ e2))) ∧
    (∀ (dl : ReqB → Except String Unit) url title opts e,
      dl (videoReqB url title opts) = .error e →
      runTwoPass dl url title opts = ([videoReqB url title opts],
        .error ("다운로드 실패: " ++ e))) ∧
    (∀ (dl : ReqB → Except String Unit) url title opts,
      (runTwoPass dl url title opts).1.length ≤ 3) ∧
    (∀ (dl : DownloadOptionsA → Except String Unit) req,
      (runSingleA dl req).1.length = 1) := by
  refine ⟨?_, ?_, ?_, ?_, ?_, ?_⟩
  · intro url title opts
    exact ⟨rfl, rfl, rfl⟩
  · intro dl url title opts h1 h2
    simp [runTwoPass, h1, h2]
  · intro dl url title opts e h1 h2
    refine ⟨?_, rfl, ?_, ?_⟩
    · cases h3 : dl (backupReqB url title opts) <;>
        simp [runTwoPass, h1, h2, h3]
    · intro h3
      simp [runTwoPass, h1, h2, h3]
    · intro e2 h3
      simp [runTwoPass, h1, h2, h3]
  · intro dl url title opts e h1
    simp [runTwoPass, h1]
  · intro dl url title opts
    cases hv : dl (videoReqB url title opts) with
    | error e => simp [runTwoPass, hv]
    | ok u =>
      cases ha : dl (audioReqB url title opts) with
      | ok u2 => simp [runTwoPass, hv, ha]
      | error e2 =>
        cases hb : dl (backupReqB url title opts) with
        | ok u3 => simp [runTwoPass, hv, ha, hb]
        | error e3 => simp [runTwoPass, hv, ha, hb]
  · intro dl req
    rfl

/-- Witness for C8: a downloader that fails exactly the strict audio request
makes the two-pass flow issue the relaxed retry and succeed. -/
theorem runTwoPass_spec_witness :
    ((runTwoPass
        (fun r => if r.format = "bestaudio".toList then .error "boom" else .ok ())
        "https://youtu.be/x".toList "title".toList {}).1 =
      [videoReqB "https://youtu.be/x".toList "title".toList {},
        audioReqB "https://youtu.be/x".toList "title".toList {},
        backupReqB "https://youtu.be/x".toList "title".toList {}]) ∧
    (runTwoPass
        (fun r => if r.format = "bestaudio".toList then .error "boom" else .ok ())
        "https://youtu.be/x".toList "title".toList {}).2 = .ok () := by
  have h := runTwoPass_spec.2.2.1
    (fun r : ReqB => if r.format = "bestaudio".toList then .error "boom" else .ok ())
    "https://youtu.be/x".toList "title".toList {} "boom" rfl rfl
  exact ⟨h.1, h.2.2.1 rfl⟩

/-! ### Claim C9: `--help` / `-h` handling -/

/-- C9 (refutation as stated): an argument list containing only `-h` does NOT
print usage in entry point A — `-h` is treated as a positional argument and,
failing URL validation, produces the invalid-URL error instead. -/
theorem mainActionA_dash_h :
    mainActionA ["-h".toList] = CliAction.invalidUrl ∧
    CliAction.invalidUrl ≠ CliAction.usage := by
  constructor
  · rfl
  · decide

/-- C9 (amended): an argument list containing `--help` (or an empty one)
makes entry point A print usage and return with no further action; an
argument list containing `--help` or `-h` (or an empty one) does the same in
entry point B; but `-h` alone does not trigger usage in entry point A, which
instead reports an invalid URL. -/
theorem mainAction_help_spec :
    (∀ args : List JStr, ("--help".toList ∈ args ∨ args = []) →
      mainActionA args = CliAction.usage) ∧
    (∀ args : List JStr, ("--help".toList ∈ args ∨ "-h".toList ∈ args ∨ args = []) →
      mainActionB args = CliAction.usage) ∧
    mainActionA ["-h".toList] = CliAction.invalidUrl := by
  refine ⟨?_, ?_, rfl⟩
  · intro args h
    rcases h with h | rfl
    · have h' : ['-', '-', 'h', 'e', 'l', 'p'] ∈ args := by simpa using h
      simp [mainActionA, h']
    · simp [mainActionA]
  · intro args h
    rcases h with h | h | rfl
    · have h' : ['-', '-', 'h', 'e', 'l', 'p'] ∈ args := by simpa using h
      simp [mainActionB, h']
    · have h' : ['-', 'h'] ∈ args := by simpa using h
      simp [mainActionB, h']
    · simp [mainActionB]

/-- Witness for C9 (amended) at concrete argument lists. -/
theorem mainAction_help_spec_witness :
    mainActionA ["--help".toList] = CliAction.usage ∧
    mainActionB ["-h".toList] = CliAction.usage :=
  ⟨mainAction_help_spec.1 ["--help".toList] (Or.inl (by decide)),
    mainAction_help_spec.2.1 ["-h".toList] (Or.inr (Or.inl (by decide)))⟩

theorem replaceAllF_fuel_irrel (p v : JStr) :
    ∀ (fuel1 : Nat) (fuel2 : Nat) (s : JStr), s.length ≤ fuel1 → s.length ≤ fuel2 →
      replaceAllF fuel1 p v s = replaceAllF fuel2 p v s := by
  intro fuel1
  induction fuel1 with
  | zero =>
    intro fuel2 s h1 h2
    have hs : s = [] := List.length_eq_zero.mp (Nat.le_zero.mp h1)
    subst hs
    cases fuel2 <;> rfl
  | succ f1 ih =>
    intro fuel2 s h1 h2
    cases s with
    | nil => cases fuel2 <;> rfl
    | cons c cs =>
      cases fuel2 with
      | zero => simp at h2
      | succ f2 =>
        simp only [replaceAllF]
        by_cases hc : p ≠ [] ∧ List.isPrefixOf p (c :: cs) = true
        · rw [if_pos hc, if_pos hc]
          have hplen : 1 ≤ p.length := by
            cases p with
            | nil => exact absurd rfl hc.1
            | cons _ _ => simp
          have hlen : ((c :: cs).drop p.length).length ≤ f1 := by
            simp only [List.length_drop, List.length_cons] at *
            omega
          have hlen2 : ((c :: cs).drop p.length).length ≤ f2 := by
            simp only [List.length_drop, List.length_cons] at *
            omega
          rw [ih f2 _ hlen hlen2]
        · rw [if_neg hc, if_neg hc]
          have hlen : cs.length ≤ f1 := by
            simp only [List.length_cons] at h1
            omega
          have hlen2 : cs.length ≤ f2 := by
            simp only [List.length_cons] at h2
            omega
          rw [ih f2 _ hlen hlen2]

theorem replaceAll_nil (p v : JStr) : replaceAll p v [] = [] := rfl

theorem replaceAll_pos {p : JStr} (v : JStr) {s : JStr} (hp : p ≠ [])
    (hpre : List.isPrefixOf p s = true) :
    replaceAll p v s = v ++ replaceAll p v (s.drop p.length) := by
  cases s with
  | nil =>
    cases p with
    | nil => exact absurd rfl hp
    | cons a b => simp [List.isPrefixOf] at hpre
  | cons c cs =>
    have hplen : 1 ≤ p.length := by
      cases p with
      | nil => exact absurd rfl hp
      | cons _ _ => simp
    show replaceAllF (c :: cs).length p v (c :: cs) = _
    rw [List.length_cons, replaceAllF, if_pos ⟨hp, hpre⟩]
    congr 1
    apply replaceAllF_fuel_irrel
    · simp only [List.length_drop, List.length_cons]
      omega
    · exact le_refl _

theorem replaceAll_neg {p : JStr} (v : JStr) {c : Char} {cs : JStr}
    (h : ¬(p ≠ [] ∧ List.isPrefixOf p (c :: cs) = true)) :
    replaceAll p v (c :: cs) = c :: replaceAll p v cs := by
  show replaceAllF (c :: cs).length p v (c :: cs) = _
  rw [List.length_cons, replaceAllF, if_neg h]
  rfl

/-- A pass whose pattern does not occur in the string is the identity. -/
theorem replaceAll_not_occurs {p : JStr} (v : JStr) {s : JStr}
    (h : occursIn p s = false) : replaceAll p v s = s := by
  induction s with
  | nil => rfl
  | cons c cs ih =>
    simp only [occursIn, Bool.or_eq_false_iff] at h
    rw [replaceAll_neg v (by simp [h.1]), ih h.2]

/-- A pass distributes over an appended prefix that cannot start a match: a
segment without `{` when the pattern starts with `{`. -/
theorem replaceAll_append_clean {p : JStr} (v : JStr) {a b : JStr}
    (hp : ∃ t, p = '{' :: t) (ha : ∀ c ∈ a, c ≠ '{') :
    replaceAll p v (a ++ b) = a ++ replaceAll p v b := by
  obtain ⟨t, rfl⟩ := hp
  induction a with
  | nil => simp
  | cons c cs ih =>
    have hc : c ≠ '{' := ha c (List.mem_cons_self c cs)
    rw [List.cons_append, replaceAll_neg v]
    · rw [ih fun x hx => ha x (List.mem_cons_of_mem c hx)]
      rfl
    · rintro ⟨-, hpre⟩
      simp only [List.cons_append, List.isPrefixOf, Bool.and_eq_true, beq_iff_eq] at hpre
      exact hc hpre.1.symm

/-- A pass replaces the pattern standing at the front of the string. -/
theorem replaceAll_append_pat {p : JStr} (v : JStr) (b : JStr) (hp : p ≠ []) :
    replaceAll p v (p ++ b) = v ++ replaceAll p v b := by
  rw [replaceAll_pos v hp ( List.isPrefixOf_iff_prefix.mpr ( List.prefix_append p b)),
    List.drop_left]

theorem findTok_some {L : List (JStr × JStr)} {s : JStr}
    {pr : (JStr × JStr) × JStr} (h : findTok L s = some pr) :
    pr.1 ∈ L ∧ pr.1.1 ≠ [] ∧ List.isPrefixOf pr.1.1 s = true ∧
      pr.2 = s.drop pr.1.1.length := by
  induction L with
  | nil => simp [findTok] at h
  | cons pv rest ih =>
    simp only [findTok] at h
    by_cases hc : pv.1 ≠ [] ∧ List.isPrefixOf pv.1 s = true
    · rw [if_pos hc] at h
      cases h
      exact ⟨List.mem_cons_self _ _, hc.1, hc.2, rfl⟩
    · rw [if_neg hc] at h
      obtain ⟨h1, h2, h3, h4⟩ := ih h
      exact ⟨List.mem_cons_of_mem _ h1, h2, h3, h4⟩

theorem findTok_none {L : List (JStr × JStr)} {s : JStr}
    (h : findTok L s = none) :
    ∀ pv ∈ L, ¬(pv.1 ≠ [] ∧ List.isPrefixOf pv.1 s = true) := by
  induction L with
  | nil => simp
  | cons q rest ih =>
    simp only [findTok] at h
    by_cases hc : q.1 ≠ [] ∧ List.isPrefixOf q.1 s = true
    · rw [if_pos hc] at h
      exact absurd h (by simp)
    · rw [if_neg hc] at h
      intro pv hpv
      rcases List.mem_cons.mp hpv with rfl | hpv
      · exact hc
      · exact ih h pv hpv

theorem findTok_append (L L' : List (JStr × JStr)) (s : JStr) :
    findTok (L ++ L') s =
      match findTok L s with
      | some pr => some pr
      | none => findTok L' s := by
  induction L with
  | nil => simp [findTok]
  | cons pv rest ih =>
    simp only [List.cons_append, findTok, List.append_eq]
    by_cases hc : pv.1 ≠ [] ∧ List.isPrefixOf pv.1 s = true
    · rw [if_pos hc, if_pos hc]
    · rw [if_neg hc, if_neg hc, ih]

theorem scanF_fuel_irrel (L : List (JStr × JStr)) :
    ∀ (fuel1 : Nat) (fuel2 : Nat) (s : JStr), s.length ≤ fuel1 → s.length ≤ fuel2 →
      scanF fuel1 L s = scanF fuel2 L s := by
  intro fuel1
  induction fuel1 with
  | zero =>
    intro fuel2 s h1 h2
    have hs : s = [] := List.length_eq_zero.mp (Nat.le_zero.mp h1)
    subst hs
    cases fuel2 <;> rfl
  | succ f1 ih =>
    intro fuel2 s h1 h2
    cases s with
    | nil => cases fuel2 <;> rfl
    | cons c cs =>
      cases fuel2 with
      | zero => simp at h2
      | succ f2 =>
        simp only [scanF]
        cases hf : findTok L (c :: cs) with
        | some pr =>
          obtain ⟨-, hne, -, hdrop⟩ := findTok_some hf
          have hplen : 1 ≤ pr.1.1.length := by
            cases hq : pr.1.1 with
            | nil => exact absurd hq hne
            | cons _ _ => simp [hq]
          have hl1 : pr.2.length ≤ f1 := by
            rw [hdrop]
            simp only [List.length_drop, List.length_cons] at *
            omega
          have hl2 : pr.2.length ≤ f2 := by
            rw [hdrop]
            simp only [List.length_drop, List.length_cons] at *
            omega
          dsimp only
          rw [ih f2 _ hl1 hl2]
        | none =>
          have hl1 : cs.length ≤ f1 := by
            simp only [List.length_cons] at h1
            omega
          have hl2 : cs.length ≤ f2 := by
            simp only [List.length_cons] at h2
            omega
          dsimp only
          rw [ih f2 _ hl1 hl2]

theorem simultSubst_nil (L : List (JStr × JStr)) : simultSubst L [] = [] := rfl

theorem simultSubst_pos {L : List (JStr × JStr)} {s : JStr}
    {pr : (JStr × JStr) × JStr} (h : findTok L s = some pr) :
    simultSubst L s = pr.1.2 ++ simultSubst L pr.2 := by
  obtain ⟨-, hne, hpre, hdrop⟩ := findTok_some h
  cases s with
  | nil =>
    cases hq : pr.1.1 with
    | nil => exact absurd hq hne
    | cons a b => rw [hq] at hpre; simp [List.isPrefixOf] at hpre
  | cons c cs =>
    have hplen : 1 ≤ pr.1.1.length := by
      cases hq : pr.1.1 with
      | nil => exact absurd hq hne
      | cons _ _ => simp [hq]
    show scanF (c :: cs).length L (c :: cs) = _
    rw [List.length_cons, scanF, h]
    dsimp only
    congr 1
    apply scanF_fuel_irrel
    · rw [hdrop]
      simp only [List.length_drop, List.length_cons]
      omega
    · exact le_refl _

theorem simultSubst_neg {L : List (JStr × JStr)} {c : Char} {cs : JStr}
    (h : findTok L (c :: cs) = none) :
    simultSubst L (c :: cs) = c :: simultSubst L cs := by
  show scanF (c :: cs).length L (c :: cs) = _
  rw [List.length_cons, scanF, h]
  rfl

/-- With an empty pattern list the scan is the identity. -/
theorem simultSubst_nil_toks (s : JStr) : simultSubst [] s = s := by
  induction s with
  | nil => rfl
  | cons c cs ih =>
    have hf : findTok ([] : List (JStr × JStr)) (c :: cs) = none := rfl
    rw [simultSubst_neg hf, ih]

/-- No pattern of `L` (each starting with `{`) matches at a non-`{` head. -/
theorem findTok_none_of_head {L : List (JStr × JStr)}
    (hL : ∀ pv ∈ L, ∃ t, pv.1 = '{' :: t) {c : Char} (hc : c ≠ '{')
    (cs : JStr) : findTok L (c :: cs) = none := by
  induction L with
  | nil => rfl
  | cons pv rest ih =>
    obtain ⟨t, ht⟩ := hL pv (List.mem_cons_self _ _)
    rw [findTok, if_neg, ih fun q hq => hL q (List.mem_cons_of_mem _ hq)]
    rintro ⟨-, hpre⟩
    rw [ht] at hpre
    simp only [List.isPrefixOf, Bool.and_eq_true, beq_iff_eq] at hpre
    exact hc hpre.1.symm

/-- The scan passes over a `{`-free segment verbatim. -/
theorem simultSubst_append_clean {L : List (JStr × JStr)}
    (hL : ∀ pv ∈ L, ∃ t, pv.1 = '{' :: t) {a : JStr} (b : JStr)
    (ha : ∀ c ∈ a, c ≠ '{') :
    simultSubst L (a ++ b) = a ++ simultSubst L b := by
  induction a with
  | nil => simp
  | cons c cs ih =>
    have hc : c ≠ '{' := ha c (List.mem_cons_self c cs)
    rw [List.cons_append, simultSubst_neg (findTok_none_of_head hL hc _),
      ih fun x hx => ha x (List.mem_cons_of_mem c hx), List.cons_append]

theorem letter_ne_lbrace {c : Char} (h : isLetterChar c = true) : c ≠ '{' := by
  intro hc
  subst hc
  revert h
  decide

theorem val_ne_lbrace {c : Char} (h : isValChar c = true) : c ≠ '{' := by
  intro hc
  subst hc
  revert h
  decide

theorem letter_or_rbrace_not_val {c : Char}
    (h : isLetterChar c = true ∨ c = '}') : isValChar c = false := by
  rcases h with h | rfl
  · simp only [isLetterChar, decide_eq_true_eq] at h
    simp only [isValChar, decide_eq_false_iff_not]
    omega
  · decide

theorem isPat_head {p : JStr} (hp : IsPat p) : ∃ t, p = '{' :: t := by
  obtain ⟨nm, rfl, -, -⟩ := hp
  exact ⟨nm ++ ['}'], rfl⟩

theorem isPat_ne_nil {p : JStr} (hp : IsPat p) : p ≠ [] := by
  obtain ⟨nm, rfl, -, -⟩ := hp
  simp

/-- Two bracketed letter names with one a prefix of the other are equal. -/
theorem brack_names_eq {np : JStr} :
    ∀ {nq : JStr}, (∀ c ∈ np, isLetterChar c = true) →
      (∀ c ∈ nq, isLetterChar c = true) →
      (np ++ ['}']) <+: (nq ++ ['}']) → np = nq := by
  induction np with
  | nil =>
    intro nq _ hnq h
    cases nq with
    | nil => rfl
    | cons b nq' =>
      rw [List.nil_append, List.cons_append, List.cons_prefix_cons] at h
      have hb := hnq b (List.mem_cons_self b nq')
      rw [← h.1] at hb
      exact absurd hb (by decide)
  | cons a np' ih =>
    intro nq hnp hnq h
    cases nq with
    | nil =>
      rw [List.cons_append, List.nil_append, List.cons_prefix_cons] at h
      have ha := hnp a (List.mem_cons_self a np')
      rw [h.1] at ha
      exact absurd ha (by decide)
    | cons b nq' =>
      rw [List.cons_append, List.cons_append, List.cons_prefix_cons] at h
      rw [h.1, ih (fun c hc => hnp c (List.mem_cons_of_mem a hc))
        (fun c hc => hnq c (List.mem_cons_of_mem b hc)) h.2]

/-- At any position at most one placeholder pattern can match. -/
theorem isPat_unique {p q s : JStr} (hp : IsPat p) (hq : IsPat q)
    (h1 : List.isPrefixOf p s = true) (h2 : List.isPrefixOf q s = true) : p = q := by
  obtain ⟨np, rfl, -, hnp⟩ := hp
  obtain ⟨nq, rfl, -, hnq⟩ := hq
  rw [ List.isPrefixOf_iff_prefix] at h1 h2
  rcases List.prefix_or_prefix_of_prefix h1 h2 with h | h
  · rw [List.cons_prefix_cons] at h
    rw [brack_names_eq hnp hnq h.2]
  · rw [List.cons_prefix_cons] at h
    rw [brack_names_eq hnq hnp h.2]

/-- A string of letters and `}` that is a prefix of the scan output is already
a prefix of the input: values start with digits or underscores, so the scan
cannot manufacture such a prefix. -/
theorem clean_isPrefixOf_scan {L : List (JStr × JStr)}
    (hL : ∀ pv ∈ L, IsPat pv.1 ∧ GoodVal pv.2) :
    ∀ (cs x : JStr), (∀ c ∈ x, isLetterChar c = true ∨ c = '}') →
      List.isPrefixOf x (simultSubst L cs) = true → List.isPrefixOf x cs = true := by
  intro cs
  induction cs with
  | nil =>
    intro x hx h
    rwa [simultSubst_nil] at h
  | cons c cs' ih =>
    intro x hx h
    cases hf : findTok L (c :: cs') with
    | some pr =>
      rw [simultSubst_pos hf] at h
      cases x with
      | nil => simp [List.isPrefixOf]
      | cons x0 x' =>
        obtain ⟨hmem, -, -, -⟩ := findTok_some hf
        obtain ⟨hne, hval⟩ := (hL pr.1 hmem).2
        cases hv : pr.1.2 with
        | nil => exact absurd hv hne
        | cons d v' =>
          rw [hv, List.cons_append, List.isPrefixOf, Bool.and_eq_true, beq_iff_eq] at h
          have hd : isValChar d = true := hval d (hv ▸ List.mem_cons_self d v')
          have hx0 := letter_or_rbrace_not_val (hx x0 (List.mem_cons_self x0 x'))
          rw [h.1] at hx0
          rw [hd] at hx0
          exact absurd hx0 (by decide)
    | none =>
      rw [simultSubst_neg hf] at h
      cases x with
      | nil => simp [List.isPrefixOf]
      | cons x0 x' =>
        rw [List.isPrefixOf, Bool.and_eq_true, beq_iff_eq] at h
        rw [List.isPrefixOf, Bool.and_eq_true, beq_iff_eq]
        exact ⟨h.1, ih x' (fun c hc => hx c (List.mem_cons_of_mem x0 hc)) h.2⟩

/-- The scan passes over a pattern standing at the front (when no pattern of
`L` matches there) verbatim. -/
theorem simultSubst_pat_front {L : List (JStr × JStr)}
    (hLpat : ∀ pv ∈ L, ∃ u, pv.1 = '{' :: u) {nm : JStr}
    (hnm : ∀ c ∈ nm, isLetterChar c = true) (t : JStr)
    (hf : findTok L (('{' :: (nm ++ ['}'])) ++ t) = none) :
    simultSubst L (('{' :: (nm ++ ['}'])) ++ t) =
      ('{' :: (nm ++ ['}'])) ++ simultSubst L t := by
  have h1 : ('{' :: (nm ++ ['}'])) ++ t = '{' :: (nm ++ ('}' :: t)) := by simp
  rw [h1] at hf ⊢
  rw [simultSubst_neg hf,
    simultSubst_append_clean hLpat _ (fun c hc => letter_ne_lbrace (hnm c hc)),
    simultSubst_neg (findTok_none_of_head hLpat (by decide) t)]
  simp

/-- Key lemma: running one more sequential `replaceAll` pass on the
simultaneous scan for `L` equals the simultaneous scan for `L` extended by
that pass. -/
theorem pass_simultSubst {L : List (JStr × JStr)}
    (hL : ∀ pv ∈ L, IsPat pv.1 ∧ GoodVal pv.2) {p : JStr} (v : JStr)
    (hp : IsPat p) :
    ∀ s, replaceAll p v (simultSubst L s) = simultSubst (L ++ [(p, v)]) s := by
  have hLpat : ∀ pv ∈ L, ∃ u, pv.1 = '{' :: u := fun pv h => isPat_head (hL pv h).1
  have main : ∀ (n : Nat) (s : JStr), s.length ≤ n →
      replaceAll p v (simultSubst L s) = simultSubst (L ++ [(p, v)]) s := by
    intro n
    induction n with
    | zero =>
      intro s hs
      have : s = [] := List.length_eq_zero.mp (Nat.le_zero.mp hs)
      subst this
      rfl
    | succ n ih =>
      intro s hs
      cases s with
      | nil => rfl
      | cons c cs =>
        cases hf : findTok L (c :: cs) with
        | some pr =>
          obtain ⟨hmem, hne, hpre, hdrop⟩ := findTok_some hf
          have hgood := (hL pr.1 hmem).2
          have hplen : 1 ≤ pr.1.1.length := by
            cases hq : pr.1.1 with
            | nil => exact absurd hq hne
            | cons _ _ => simp [hq]
          have hbound : pr.2.length ≤ n := by
            rw [hdrop]
            simp only [List.length_drop, List.length_cons] at *
            omega
          have hf' : findTok (L ++ [(p, v)]) (c :: cs) = some pr := by
            rw [findTok_append, hf]
          rw [simultSubst_pos hf,
            replaceAll_append_clean v (isPat_head hp)
              (fun x hx => val_ne_lbrace (hgood.2 x hx)),
            ih pr.2 hbound, simultSubst_pos hf']
        | none =>
          by_cases hpre : List.isPrefixOf p (c :: cs) = true
          · obtain ⟨t, ht⟩ := List.isPrefixOf_iff_prefix.mp hpre
            obtain ⟨nm, hpnm, hnmne, hnml⟩ := hp
            have hfp : findTok L (p ++ t) = none := by rwa [ht]
            have hscan : simultSubst L (c :: cs) = p ++ simultSubst L t := by
              rw [← ht]
              rw [hpnm] at hfp ⊢
              exact simultSubst_pat_front hLpat hnml t hfp
            have htlen : t.length ≤ n := by
              have := congrArg List.length ht
              simp only [List.length_append, List.length_cons] at this hs
              have hplen : 1 ≤ p.length := by
                cases hq : p with
                | nil => exact absurd hq (isPat_ne_nil ⟨nm, hpnm, hnmne, hnml⟩)
                | cons _ _ => simp [hq]
              omega
            have hf' : findTok (L ++ [(p, v)]) (c :: cs) = some ((p, v), t) := by
              rw [findTok_append, hf, findTok,
                if_pos ⟨isPat_ne_nil ⟨nm, hpnm, hnmne, hnml⟩, hpre⟩]
              have : (c :: cs).drop p.length = t := by
                rw [← ht, List.drop_left]
              rw [this]
            rw [hscan, replaceAll_append_pat v _
              (isPat_ne_nil ⟨nm, hpnm, hnmne, hnml⟩), ih t htlen,
              simultSubst_pos hf']
          · have hbound : cs.length ≤ n := by
              simp only [List.length_cons] at hs
              omega
            have hnp : ¬ List.isPrefixOf p (c :: simultSubst L cs) = true := by
              intro hcontra
              obtain ⟨nm, hpnm, hnmne, hnml⟩ := hp
              rw [hpnm, List.isPrefixOf, Bool.and_eq_true, beq_iff_eq] at hcontra
              have hclean : ∀ x ∈ nm ++ ['}'], isLetterChar x = true ∨ x = '}' := by
                intro x hx
                rcases List.mem_append.mp hx with hx | hx
                · exact Or.inl (hnml x hx)
                · exact Or.inr (List.mem_singleton.mp hx)
              have := clean_isPrefixOf_scan hL cs (nm ++ ['}']) hclean hcontra.2
              apply hpre
              rw [hpnm, List.isPrefixOf, Bool.and_eq_true, beq_iff_eq]
              exact ⟨hcontra.1, this⟩
            have hf' : findTok (L ++ [(p, v)]) (c :: cs) = none := by
              rw [findTok_append, hf, findTok, if_neg (fun hx => hpre hx.2), findTok]
            rw [simultSubst_neg hf, replaceAll_neg v (fun hx => hnp hx.2),
              ih cs hbound, simultSubst_neg hf']
  exact fun s => main s.length s (le_refl _)

/-! ### Well-formedness of the generated date/time values -/
theorem digitChar10_val (n : Nat) : isValChar (digitChar10 n) = true := by
  unfold digitChar10
  split <;> decide

theorem natDigitsAux_val (fuel : Nat) :
    ∀ (n : Nat) (acc : JStr), (∀ c ∈ acc, isValChar c = true) →
      ∀ c ∈ natDigitsAux fuel n acc, isValChar c = true := by
  induction fuel with
  | zero => exact fun n acc hacc c hc => hacc c hc
  | succ f ih =>
    intro n acc hacc c hc
    rw [natDigitsAux] at hc
    by_cases hn : n < 10
    · rw [if_pos hn] at hc
      rcases List.mem_cons.mp hc with rfl | hc
      · exact digitChar10_val n
      · exact hacc c hc
    · rw [if_neg hn] at hc
      refine ih (n / 10) _ ?_ c hc
      intro x hx
      rcases List.mem_cons.mp hx with rfl | hx
      · exact digitChar10_val _
      · exact hacc x hx

theorem natDigitsAux_acc_ne (fuel : Nat) :
    ∀ (n : Nat) (a : Char) (acc : JStr), natDigitsAux fuel n (a :: acc) ≠ [] := by
  induction fuel with
  | zero => simp [natDigitsAux]
  | succ f ih =>
    intro n a acc
    rw [natDigitsAux]
    by_cases hn : n < 10
    · simp [hn]
    · rw [if_neg hn]
      exact ih (n / 10) _ _

theorem natDigits_ne_nil (n : Nat) : natDigits n ≠ [] := by
  unfold natDigits
  rw [natDigitsAux]
  by_cases hn : n < 10
  · simp [hn]
  · rw [if_neg hn]
    exact natDigitsAux_acc_ne n (n / 10) _ _

theorem natDigits_val (n : Nat) : ∀ c ∈ natDigits n, isValChar c = true :=
  natDigitsAux_val (n + 1) n [] (by simp)

theorem sliceLast2_good {s : JStr} (hne : s ≠ [])
    (hval : ∀ c ∈ s, isValChar c = true) : GoodVal (sliceLast2 s) := by
  constructor
  · unfold sliceLast2
    intro he
    have hlen := congrArg List.length he
    rw [List.length_drop] at hlen
    have h0 : s.length ≠ 0 := fun h0 => hne (List.length_eq_zero.mp h0)
    simp at hlen
    omega
  · exact fun c hc => hval c (List.drop_subset _ s hc)

theorem padStart2_good {s : JStr}
    (hval : ∀ c ∈ s, isValChar c = true) : GoodVal (padStart2 s) := by
  constructor
  · unfold padStart2
    by_cases h2 : 2 ≤ s.length
    · rw [if_pos h2]
      intro he
      rw [he] at h2
      simp at h2
    · rw [if_neg h2]
      intro he
      rcases List.append_eq_nil.mp he with ⟨hrep, -⟩
      rw [List.replicate_eq_nil_iff] at hrep
      omega
  · intro c hc
    unfold padStart2 at hc
    by_cases h2 : 2 ≤ s.length
    · rw [if_pos h2] at hc
      exact hval c hc
    · rw [if_neg h2] at hc
      rcases List.mem_append.mp hc with hc | hc
      · rw [List.eq_of_mem_replicate hc]
        decide
      · exact hval c hc

theorem goodVal_append {a b : JStr} (ha : GoodVal a) (hb : GoodVal b) :
    GoodVal (a ++ b) := by
  refine ⟨by simp [ha.1], ?_⟩
  intro c hc
  rcases List.mem_append.mp hc with hc | hc
  · exact ha.2 c hc
  · exact hb.2 c hc

theorem goodVal_underscore_cons {b : JStr} (hb : GoodVal b) :
    GoodVal ('_' :: b) := by
  refine ⟨by simp, ?_⟩
  intro c hc
  rcases List.mem_cons.mp hc with rfl | hc
  · decide
  · exact hb.2 c hc

/-- Every pass of `replacePlaceholders` has a well-formed bracketed pattern
and a non-empty digit/underscore value. -/
theorem tokPairs_good (now : JSDate) :
    ∀ pv ∈ tokPairs (getCurrentDateTime now), IsPat pv.1 ∧ GoodVal pv.2 := by
  have hyear : GoodVal (sliceLast2 (natDigits now.fullYear)) :=
    sliceLast2_good (natDigits_ne_nil _) (natDigits_val _)
  have hmonth : GoodVal (padStart2 (natDigits (now.monthIndex + 1))) :=
    padStart2_good (natDigits_val _)
  have hday : GoodVal (padStart2 (natDigits now.dayOfMonth)) :=
    padStart2_good (natDigits_val _)
  have hhours : GoodVal (padStart2 (natDigits now.hours)) :=
    padStart2_good (natDigits_val _)
  have hmins : GoodVal (padStart2 (natDigits now.minutes)) :=
    padStart2_good (natDigits_val _)
  have hsecs : GoodVal (padStart2 (natDigits now.seconds)) :=
    padStart2_good (natDigits_val _)
  have htime : GoodVal ((padStart2 (natDigits now.hours) ++
      padStart2 (natDigits now.minutes)) ++ padStart2 (natDigits now.seconds)) :=
    goodVal_append (goodVal_append hhours hmins) hsecs
  have hdate : GoodVal ((sliceLast2 (natDigits now.fullYear) ++
      padStart2 (natDigits (now.monthIndex + 1))) ++ padStart2 (natDigits now.dayOfMonth)) :=
    goodVal_append (goodVal_append hyear hmonth) hday
  intro pv hpv
  simp only [tokPairs, getCurrentDateTime, List.mem_cons, List.not_mem_nil,
    or_false] at hpv
  rcases hpv with rfl | rfl | rfl | rfl | rfl | rfl | rfl | rfl | rfl | rfl |
    rfl | rfl | rfl | rfl | rfl <;> dsimp only
  · exact ⟨⟨"fullTime".toList, by decide, by decide, by decide⟩,
      goodVal_append hdate (goodVal_underscore_cons htime)⟩
  · exact ⟨⟨"date".toList, by decide, by decide, by decide⟩, hdate⟩
  · exact ⟨⟨"year".toList, by decide, by decide, by decide⟩, hyear⟩
  · exact ⟨⟨"y".toList, by decide, by decide, by decide⟩, hyear⟩
  · exact ⟨⟨"month".toList, by decide, by decide, by decide⟩, hmonth⟩
  · exact ⟨⟨"m".toList, by decide, by decide, by decide⟩, hmonth⟩
  · exact ⟨⟨"day".toList, by decide, by decide, by decide⟩, hday⟩
  · exact ⟨⟨"d".toList, by decide, by decide, by decide⟩, hday⟩
  · exact ⟨⟨"time".toList, by decide, by decide, by decide⟩, htime⟩
  · exact ⟨⟨"hour".toList, by decide, by decide, by decide⟩, hhours⟩
  · exact ⟨⟨"h".toList, by decide, by decide, by decide⟩, hhours⟩
  · exact ⟨⟨"minute".toList, by decide, by decide, by decide⟩, hmins⟩
  · exact ⟨⟨"min".toList, by decide, by decide, by decide⟩, hmins⟩
  · exact ⟨⟨"second".toList, by decide, by decide, by decide⟩, hsecs⟩
  · exact ⟨⟨"sec".toList, by decide, by decide, by decide⟩, hsecs⟩

/-- Sequentializing the passes over a growing processed prefix. -/
theorem foldl_passes :
    ∀ (L2 L1 : List (JStr × JStr)), (∀ pv ∈ L1 ++ L2, IsPat pv.1 ∧ GoodVal pv.2) →
      ∀ s, L2.foldl (fun acc pv => replaceAll pv.1 pv.2 acc) (simultSubst L1 s) =
        simultSubst (L1 ++ L2) s := by
  intro L2
  induction L2 with
  | nil =>
    intro L1 h s
    simp
  | cons pv L2' ih =>
    intro L1 h s
    rw [List.foldl_cons]
    have hL1 : ∀ q ∈ L1, IsPat q.1 ∧ GoodVal q.2 :=
      fun q hq => h q (List.mem_append_left _ hq)
    have hpv : IsPat pv.1 ∧ GoodVal pv.2 :=
      h pv (List.mem_append_right _ (List.mem_cons_self _ _))
    have hstep := pass_simultSubst hL1 pv.2 hpv.1 s
    rw [show ((pv.1, pv.2) : JStr × JStr) = pv from rfl] at hstep
    rw [hstep]
    have h' : ∀ q ∈ (L1 ++ [pv]) ++ L2', IsPat q.1 ∧ GoodVal q.2 := by
      intro q hq
      apply h
      simp only [List.mem_append, List.mem_cons] at hq ⊢
      tauto
    rw [ih (L1 ++ [pv]) h' s, List.append_assoc]
    rfl

/-- Sequential 15-pass substitution equals the one-pass simultaneous scan. -/
theorem replacePlaceholders_eq_simult {dt : DateTimeContext}
    (hgood : ∀ pv ∈ tokPairs dt, IsPat pv.1 ∧ GoodVal pv.2) (s : JStr) :
    replacePlaceholders dt s = simultSubst (tokPairs dt) s := by
  have h := foldl_passes (tokPairs dt) [] (by simpa using hgood) s
  rw [simultSubst_nil_toks, List.nil_append] at h
  exact h

theorem foldl_no_occurs {s : JStr} :
    ∀ L : List (JStr × JStr), (∀ pv ∈ L, occursIn pv.1 s = false) →
      L.foldl (fun acc pv => replaceAll pv.1 pv.2 acc) s = s := by
  intro L
  induction L with
  | nil => intro _; rfl
  | cons pv L' ih =>
    intro hL
    rw [List.foldl_cons,
      replaceAll_not_occurs pv.2 (hL pv (List.mem_cons_self _ _)),
      ih fun q hq => hL q (List.mem_cons_of_mem _ hq)]

/-- C5: each `replacePlaceholders` run (sequential global replacement of the
fifteen recognized bracketed tokens, in source order) equals a single
simultaneous left-to-right scan that replaces every occurrence of every
recognized token with the corresponding `DateTimeContext` field and keeps all
other text verbatim; a template in which no recognized token occurs is
returned unchanged; and with a fixed context (month = 03) the template
`{month}-{m}` yields `03-03`, with no corruption of `{month}` by the `{m}`
pass. -/
theorem replacePlaceholders_spec :
    (∀ (now : JSDate) (tpl : JStr),
      replacePlaceholders (getCurrentDateTime now) tpl =
        simultSubst (tokPairs (getCurrentDateTime now)) tpl) ∧
    (∀ (now : JSDate) (tpl : JStr),
      (∀ pv ∈ tokPairs (getCurrentDateTime now), occursIn pv.1 tpl = false) →
      replacePlaceholders (getCurrentDateTime now) tpl = tpl) ∧
    replacePlaceholders (getCurrentDateTime ⟨2023, 2, 15, 14, 30, 22⟩)
      "{month}-{m}".toList = "03-03".toList := by
  refine ⟨?_, ?_, ?_⟩
  · intro now tpl
    exact replacePlaceholders_eq_simult (tokPairs_good now) tpl
  · intro now tpl h
    exact foldl_no_occurs (tokPairs (getCurrentDateTime now)) h
  · decide

/-- Witness for C5 at a concrete template containing no recognized token
(but an unrecognized bracketed one, which passes through verbatim). -/
theorem replacePlaceholders_spec_witness :
    replacePlaceholders (getCurrentDateTime ⟨2023, 2, 15, 14, 30, 22⟩)
      "no tokens {foo} here".toList = "no tokens {foo} here".toList :=
  replacePlaceholders_spec.2.1 ⟨2023, 2, 15, 14, 30, 22⟩
    "no tokens {foo} here".toList (by decide)

end YtDl
